import Mathlib

/-!
Verification of the deep-deep adaptive crawl scheduler core
(`deepdeep/queues.py`, `deepdeep/links.py`, `deepdeep/utils.py`)
against its natural-language specification.

The Python code is shallowly embedded: mutable per-domain priority queues
become explicit state records, the CPython `heapq` routines are transcribed
verbatim on `List Entry`, and randomness is passed in as explicit oracles.
-/

namespace DeepDeep

/-! ## Basic constants (queues.py top level)

`FLOAT_PRIORITY_MULTIPLIER = 10000`; `score_to_priority(score) =
int(score * FLOAT_PRIORITY_MULTIPLIER)`.  The two sentinel priorities of
`RequestsPriorityQueue` are `score_to_priority(10000)` and
`score_to_priority(-10000)`, which are exact integer computations. -/

def FLOAT_PRIORITY_MULTIPLIER : Int := 10000

/-- Source `score_to_priority` restricted to integer scores, where the float
truncation `int(score * 10000)` is exact. -/
def score_to_priority_int (score : Int) : Int :=
  score * FLOAT_PRIORITY_MULTIPLIER

def REMOVED_PRIORITY : Int := score_to_priority_int 10000

def EMPTY_PRIORITY : Int := score_to_priority_int (-10000)

/-! ## Requests and heap entries

A `scrapy.Request` as used by this module: a URL, a mutable integer
priority, and the metadata keys the scheduler reads or writes.  A Python
dict cannot be distinguished by this code from one where
`meta['scheduler_slot']` is absent versus set to `None` (both make
`meta.get('scheduler_slot')` return `None`), so both are modelled as
`none`.  Each push is modelled as pushing a fresh request value (the code
would admit aliasing the same mutable object into two entries; that
contract violation is outside the model). -/

structure Req where
  url : String
  priority : Int
  /-- Source `meta.get('scheduler_slot')`: `none` when the key is absent. -/
  schedulerSlot : Option String := none
  /-- Source `meta.get('from_random_policy')`: written by the balanced queue. -/
  fromRandomPolicy : Option Bool := none
deriving DecidableEq, Repr

/-- A heap entry `[-request.priority, count, request_or_REMOVED]`.
`r = none` encodes the `REMOVED` tombstone sentinel. -/
structure Entry where
  p : Int
  c : Int
  r : Option Req
deriving DecidableEq, Repr

instance : Inhabited Entry := ⟨⟨0, 0, none⟩⟩

/-- The lexicographic comparison Python performs on entry lists
`[p, c, request]`: `p` first, then `c`.  The third component is only
compared when both `p` and `c` tie, which cannot happen for entries of one
queue (counters are distinct); in that unreachable case the model returns
`false`. -/
def entryLt (e f : Entry) : Bool :=
  decide (e.p < f.p) || (decide (e.p = f.p) && decide (e.c < f.c))

/-- The non-strict order matching `entryLt`: `¬ entryLt f e` for entries
with distinct `(p, c)` keys. -/
def keyLe (e f : Entry) : Prop :=
  e.p < f.p ∨ (e.p = f.p ∧ e.c ≤ f.c)

instance (e f : Entry) : Decidable (keyLe e f) := by
  unfold keyLe; infer_instance

/-- Parent index in the implicit binary heap layout, `(pos - 1) >> 1`. -/
def hpar (i : Nat) : Nat := (i - 1) / 2

/-! ## CPython `heapq`, transcribed

`_siftdown`, `_siftup`, `heappush`, `heappop`, `heapify` exactly as in
CPython's `heapq.py`, on a `List Entry` in place of the mutable Python
list.  List length is invariant under `List.set`, so `endpos` (read once
in Python) is passed as a fixed argument. -/

/-- Source `_siftdown(heap, startpos, pos)` with `newitem` already read out:
bubble `newitem` towards the root while it is smaller than its parent.
`pos` strictly decreases at every iteration, so the loop is driven by a
structural fuel argument that never runs out when the wrapper passes
`pos + 1` (the fuel-exhausted branch coincides with the loop exit). -/
def siftdownLoopF : Nat → List Entry → Nat → Nat → Entry → List Entry
  | 0, a, _, pos, newitem => a.set pos newitem
  | fuel + 1, a, startpos, pos, newitem =>
    if startpos < pos then
      let parentpos := hpar pos
      let parent := a.getD parentpos default
      if entryLt newitem parent then
        siftdownLoopF fuel (a.set pos parent) startpos parentpos newitem
      else
        a.set pos newitem
    else
      a.set pos newitem

def siftdownLoop (a : List Entry) (startpos pos : Nat) (newitem : Entry) :
    List Entry :=
  siftdownLoopF (pos + 1) a startpos pos newitem

/-- The loop of `_siftup(heap, pos)`: walk the min-child path down to a
leaf, shifting children up, then bubble `newitem` back up with
`_siftdown`.  `endpos - pos` strictly decreases, so a fuel of `endpos`
suffices; the fuel-exhausted branch coincides with the loop exit. -/
def siftupLoopF : Nat → List Entry → Nat → Nat → Nat → Entry → List Entry
  | 0, a, startpos, pos, _, newitem =>
    siftdownLoop (a.set pos newitem) startpos pos newitem
  | fuel + 1, a, startpos, pos, endpos, newitem =>
    if 2 * pos + 1 < endpos then
      let childpos := 2 * pos + 1
      let rightpos := childpos + 1
      let childpos :=
        if rightpos < endpos ∧
            ¬ entryLt (a.getD childpos default) (a.getD rightpos default)
        then rightpos
        else childpos
      siftupLoopF fuel (a.set pos (a.getD childpos default)) startpos
        childpos endpos newitem
    else
      siftdownLoop (a.set pos newitem) startpos pos newitem

def siftupLoop (a : List Entry) (startpos pos endpos : Nat)
    (newitem : Entry) : List Entry :=
  siftupLoopF endpos a startpos pos endpos newitem

/-- Source `_siftup(heap, pos)`. -/
def siftup (a : List Entry) (pos : Nat) : List Entry :=
  siftupLoop a pos pos a.length (a.getD pos default)

/-- Source `heappush(heap, item)`. -/
def heappush (a : List Entry) (item : Entry) : List Entry :=
  siftdownLoop (a ++ [item]) 0 a.length item

/-- Source `heappop(heap)`.  Python raises `IndexError` on an empty heap; every
call site in `queues.py` guards on non-emptiness, so the model returns
`none` there. -/
def heappop (a : List Entry) : Option Entry × List Entry :=
  match a.getLast? with
  | none => (none, [])
  | some lastelt =>
    let a' := a.dropLast
    if a' = [] then
      (some lastelt, [])
    else
      (some (a'.headD default), siftup (a'.set 0 lastelt) 0)

/-- Source `heapify(x)`: `for i in reversed(range(n//2)): _siftup(x, i)`.
`heapifyFrom a i` runs `_siftup` on `i-1, i-2, …, 0`. -/
def heapifyFrom : List Entry → Nat → List Entry
  | a, 0 => a
  | a, i + 1 => heapifyFrom (siftup a i) i

def pyHeapify (a : List Entry) : List Entry :=
  heapifyFrom a (a.length / 2)

/-! ## RequestsPriorityQueue

State of one `RequestsPriorityQueue`: the entry heap, the current value of
the `itertools.count` counter and its step (`+1` for FIFO, `-1` for
LIFO). -/

structure RPQState where
  entries : List Entry
  counter : Int
  step : Int
deriving DecidableEq, Repr

/-- Source `RequestsPriorityQueue(fifo=True)`. -/
def RPQinit (fifo : Bool := true) : RPQState :=
  { entries := [], counter := 0, step := if fifo then 1 else -1 }

/-- Source `push(request)`: `entry = [-request.priority, next(counter), request]`,
then `heapq.heappush`. -/
def RPQpush (s : RPQState) (request : Req) : RPQState :=
  { s with
    entries := heappush s.entries ⟨-request.priority, s.counter, some request⟩
    counter := s.counter + s.step }

/-- The loop of `pop()`: `while entries: heappop; if live: return`.  Each
iteration shrinks the heap by one, so a fuel of `a.length` suffices; with
that fuel the exhausted branch is only reached on the empty heap, where it
coincides with the loop exit. -/
def RPQpopLoopF : Nat → List Entry → Option Req × List Entry
  | 0, a => (none, a)
  | fuel + 1, a =>
    if a = [] then (none, [])
    else
      match (heappop a).1 with
      | none => (none, (heappop a).2)
      | some e =>
        match e.r with
        | some req => (some req, (heappop a).2)
        | none => RPQpopLoopF fuel (heappop a).2

def RPQpopLoop (a : List Entry) : Option Req × List Entry :=
  RPQpopLoopF a.length a

def RPQpop (s : RPQState) : Option Req × RPQState :=
  let (r, a') := RPQpopLoop s.entries
  (r, { s with entries := a' })

/-- Source `entry_is_active(entry)`. -/
def entry_is_active (e : Entry) : Bool := e.r.isSome

/-- Source `change_priority(entry, new_priority)`: sets `entry[0] = -new_priority`
and, when the entry is active, writes the priority back onto the
request. -/
def change_priority (e : Entry) (newPriority : Int) : Entry :=
  { e with
    p := -newPriority
    r := e.r.map (fun req => { req with priority := newPriority }) }

/-- Source `remove_entry(entry)` for the entry at position `idx` of the heap
array: tombstone it and boost its key above the key at the heap root.
`max_prio` is read from `entries[0]` exactly as in the source. -/
def removeEntryAt (s : RPQState) (idx : Nat) : RPQState :=
  let maxPrio : Int :=
    if s.entries = [] then 0 else -(s.entries.headD default).p
  match s.entries.get? idx with
  | none => s
  | some e =>
    { s with
      entries := s.entries.set idx ⟨-(maxPrio + REMOVED_PRIORITY), e.c, none⟩ }

/-- Source `_pop_empty()`: pop tombstones off the heap root (`while entries and
next_request is REMOVED: heappop`), fuelled like `RPQpopLoopF`. -/
def popEmptyLoopF : Nat → List Entry → List Entry
  | 0, a => a
  | fuel + 1, a =>
    if a ≠ [] ∧ (a.headD default).r = none then
      popEmptyLoopF fuel (heappop a).2
    else a

def popEmptyLoop (a : List Entry) : List Entry :=
  popEmptyLoopF a.length a

/-- Source `heapify()`: `heapq.heapify(entries)` then `_pop_empty()`. -/
def RPQheapify (s : RPQState) : RPQState :=
  { s with entries := popEmptyLoop (pyHeapify s.entries) }

/-- Source `max_priority()`. -/
def maxPriority (s : RPQState) : Int :=
  match s.entries.head? with
  | none => EMPTY_PRIORITY
  | some e => -e.p

/-- Source `iter_requests()`: the live requests in heap-array order. -/
def iterRequests (s : RPQState) : List Req :=
  s.entries.filterMap (·.r)

/-- The `zip(iter_active_entries(), new_priorities)` pass of
`update_all_priorities`: change each active entry's priority with the next
priority from the list, leaving tombstones alone; stop when the priorities
run out. -/
def applyChanges : List Entry → List Int → List Entry
  | es, [] => es
  | [], _ => []
  | e :: es, pr :: ps =>
    if e.r.isSome then change_priority e pr :: applyChanges es ps
    else e :: applyChanges es (pr :: ps)

/-- Source `update_all_priorities(compute_priority_func)`. -/
def updateAllPriorities (s : RPQState) (compute : List Req → List Int) :
    RPQState :=
  let requests := iterRequests s
  let newPriorities := compute requests
  RPQheapify { s with entries := applyChanges s.entries newPriorities }

/-- Source `change_priority` addressed by the entry's unique counter value (the
model of holding an entry handle); a no-op if no such entry is in the
queue. -/
def changePriorityById (s : RPQState) (id newPrio : Int) : RPQState :=
  match s.entries.findIdx? (fun e => e.c == id) with
  | none => s
  | some idx =>
    { s with
      entries :=
        s.entries.set idx (change_priority (s.entries.getD idx default) newPrio) }

/-- Source `remove_entry` addressed by the entry's unique counter value; applies
only to a live entry (removing a tombstoned entry is a contract
violation), a no-op otherwise. -/
def removeEntryById (s : RPQState) (id : Int) : RPQState :=
  match s.entries.findIdx? (fun e => e.c == id && e.r.isSome) with
  | none => s
  | some idx => removeEntryAt s idx

/-- The attempt loop of `pop_random`: each oracle value picks an index
into `entries` (`random.choice` always picks a valid index; the modulus
normalises the oracle). -/
def popRandomLoop (s : RPQState) : List Nat → Option Req × RPQState
  | [] => (none, s)
  | i :: rest =>
    match s.entries.get? (i % s.entries.length) with
    | none => (none, s)
    | some e =>
      match e.r with
      | some req => (some req, removeEntryAt s (i % s.entries.length))
      | none => popRandomLoop s rest

/-- Source `pop_random(n_attempts=10)`, with the random draws supplied as a list
of `n_attempts` oracle indices. -/
def popRandom (s : RPQState) (attempts : List Nat) : Option Req × RPQState :=
  let s' := { s with entries := popEmptyLoop s.entries }
  if s'.entries = [] then (none, s')
  else popRandomLoop s' attempts

/-- Source `__len__`: the total entry count, tombstones included. -/
def RPQlen (s : RPQState) : Nat := s.entries.length

/-! ## Operation sequences and drains (spec §8 invariant 1 / claim C3) -/

/-- The operation alphabet exactly as the claim words it: `push`, `pop`,
bare `remove_entry`, `change_priority` followed by `heapify` (a batch of
changes and one heapify), and `update_all_priorities`. -/
inductive OpA where
  | push (r : Req)
  | pop
  | removeE (id : Int)
  | changeH (ps : List (Int × Int))
  | updateAll (f : List Req → List Int)

def runOpA (s : RPQState) : OpA → RPQState
  | .push r => RPQpush s r
  | .pop => (RPQpop s).2
  | .removeE id => removeEntryById s id
  | .changeH ps =>
      RPQheapify
        (ps.foldl (fun t pr => changePriorityById t pr.1 pr.2) s)
  | .updateAll f => updateAllPriorities s f

def runOpsA (s : RPQState) (ops : List OpA) : RPQState :=
  ops.foldl runOpA s

/-- The amended alphabet: as `OpA`, but `remove_entry` is immediately
followed by `heapify` (the discipline the queue's docstring prescribes for
priority mutations). -/
inductive OpB where
  | push (r : Req)
  | pop
  | removeEH (id : Int)
  | changeH (ps : List (Int × Int))
  | updateAll (f : List Req → List Int)

def runOpB (s : RPQState) : OpB → RPQState
  | .push r => RPQpush s r
  | .pop => (RPQpop s).2
  | .removeEH id => RPQheapify (removeEntryById s id)
  | .changeH ps =>
      RPQheapify
        (ps.foldl (fun t pr => changePriorityById t pr.1 pr.2) s)
  | .updateAll f => updateAllPriorities s f

def runOpsB (s : RPQState) (ops : List OpB) : RPQState :=
  ops.foldl runOpB s

/-- Drain the queue by repeated `pop()` until it returns `None`.  A
successful pop strictly shrinks the heap, so `entries.length` steps
suffice. -/
def drainF : Nat → RPQState → List Req
  | 0, _ => []
  | fuel + 1, s =>
    match RPQpopLoop s.entries with
    | (none, _) => []
    | (some r, a') => r :: drainF fuel { s with entries := a' }

def drain (s : RPQState) : List Req :=
  drainF s.entries.length s

/-- The priorities observed through a drain. -/
def drainPrios (s : RPQState) : List Int :=
  (drain s).map (·.priority)

/-- Each adjacent pair of the list is non-increasing. -/
def nonIncreasingB : List Int → Bool
  | [] => true
  | [_] => true
  | x :: y :: rest => decide (y ≤ x) && nonIncreasingB (y :: rest)

/-- A non-increasing sequence of observed priorities. -/
def NonIncreasing (l : List Int) : Prop :=
  nonIncreasingB l = true

instance (l : List Int) : Decidable (NonIncreasing l) :=
  inferInstanceAs (Decidable (nonIncreasingB l = true))

/-! ## BalancedPriorityQueue

`queues` is a Python dict and hence insertion-ordered: modelled as an
association list where updating an existing key keeps its position and a
new key is appended.  The randomness of `_pop_many` (`np.random.choice`
over the softmax distribution, `random.random()`, `random.choice`) is
supplied by an oracle; the oracle's slot indices are normalised modulo the
slot count, as the library primitives only ever produce valid indices. -/

abbrev Slot := Option String

def dictLookup (qs : List (Slot × RPQState)) (slot : Slot) : Option RPQState :=
  (qs.find? (fun kv => kv.1 == slot)).map (·.2)

def dictSet (qs : List (Slot × RPQState)) (slot : Slot) (q : RPQState) :
    List (Slot × RPQState) :=
  match qs with
  | [] => [(slot, q)]
  | kv :: rest =>
    if kv.1 == slot then (slot, q) :: rest else kv :: dictSet rest slot q

inductive QueueClosedE where
  | queueClosed
deriving DecidableEq, Repr

structure BState where
  queues : List (Slot × RPQState)
  closedSlots : List Slot
  eps : ℚ
  /-- Source `balancing_temperature`; it only shapes the softmax distribution,
  which the sampling oracle absorbs. -/
  balancingTemperature : ℚ
  batchSize : Option Nat
  buffer : List Req
  queueFactory : Slot → RPQState

/-- Source `BalancedPriorityQueue(queue_factory, eps, balancing_temperature,
batch_size)`. -/
def BPQinit (factory : Slot → RPQState) (eps : ℚ := 0)
    (balancingTemperature : ℚ := 1) (batchSize : Option Nat := none) :
    BState :=
  { queues := [], closedSlots := [], eps := eps
    balancingTemperature := balancingTemperature
    batchSize := batchSize, buffer := [], queueFactory := factory }

/-- Source `push(request)`: read `meta.get('scheduler_slot')`, raise `QueueClosed`
for a closed slot (before any mutation), lazily create the slot's queue via
the factory, and push.  The error case returns the unchanged state paired
with the raised exception. -/
def BPQpush (s : BState) (request : Req) : BState × Option QueueClosedE :=
  let slot := request.schedulerSlot
  if slot ∈ s.closedSlots then (s, some .queueClosed)
  else
    let q :=
      match dictLookup s.queues slot with
      | some q => q
      | none => s.queueFactory slot
    ({ s with queues := dictSet s.queues slot (RPQpush q request) }, none)

/-- Source `close_queue(slot) → int`: add to `closed_slots`, drop the queue,
return `len(self.queues.pop(slot, None) or [])`. -/
def BPQcloseQueue (s : BState) (slot : Slot) : Nat × BState :=
  let closed' :=
    if slot ∈ s.closedSlots then s.closedSlots else s.closedSlots ++ [slot]
  let found := dictLookup s.queues slot
  (((found.map (·.entries.length)).getD 0),
    { s with
      closedSlots := closed'
      queues := s.queues.filter (fun kv => !(kv.1 == slot)) })

/-- Source `__len__`: entries across all queues plus the output buffer. -/
def BPQlen (s : BState) : Nat :=
  (s.queues.map (fun kv => kv.2.entries.length)).sum + s.buffer.length

/-- Source `get_active_slots()`. -/
def getActiveSlots (s : BState) : List Slot :=
  (s.queues.filter (fun kv => kv.2.entries.length != 0)).map (·.1)

/-- Source `batch_size` property. -/
def batchSizeOf (s : BState) : Nat :=
  match s.batchSize with
  | some b => b
  | none => min 1000 (max 1 (s.queues.length / 1000))

/-- The random draws of one `_pop_many` call: for batch position `i`,
`choice i` is the `np.random.choice` sample (an index into `all_slots`),
`epsDraw i` the `random.random()` value in `[0, 1)`, `randSlot i` the
`random.choice(all_slots)` index, and `popRandomAttempts i` the index
draws of a `pop_random` call. -/
structure Oracle where
  choice : Nat → Nat
  epsDraw : Nat → ℚ
  randSlot : Nat → Nat
  popRandomAttempts : Nat → List Nat

/-- The pop loop of `_pop_many`: for each batch item, pop from the queue
at its slot (`pop_random` on the ε-branch, `pop` otherwise), stamp
`meta['from_random_policy']`, and drop `None` returns.  Queue objects are
identified by slot; no slot leaves `queues` during the loop. -/
def popManyLoop (s : BState) :
    List (Bool × Slot × List Nat) → List Req × BState
  | [] => ([], s)
  | (isRand, slot, attempts) :: rest =>
    let q := (dictLookup s.queues slot).getD (RPQinit true)
    let pr := if isRand then popRandom q attempts else RPQpop q
    let s' := { s with queues := dictSet s.queues slot pr.2 }
    let out := popManyLoop s' rest
    match pr.1 with
    | none => out
    | some r =>
      ({ r with fromRandomPolicy := some isRand } :: out.1, out.2)

/-- Source `_pop_many(n)`.  The weight vector and the softmax over it only
parameterise the distribution that `np.random.choice` samples from; the
oracle supplies the samples themselves.  `random_policy` is
`random.random() < (self.eps or 0.0)`, where `self.eps or 0.0` equals
`self.eps` for every float `eps`. -/
def BPQpopMany (s : BState) (n : Nat) (orc : Oracle) :
    List Req × BState :=
  let allSlots := s.queues.map (·.1)
  if allSlots = [] then ([], s)
  else
    let items := (List.range n).map (fun i =>
      let randomPolicy := decide (orc.epsDraw i < s.eps)
      let slot :=
        if randomPolicy then
          allSlots.getD (orc.randSlot i % allSlots.length) none
        else
          allSlots.getD (orc.choice i % allSlots.length) none
      (randomPolicy, slot, orc.popRandomAttempts i))
    popManyLoop s items

/-- Source `pop()`: refill the buffer from `_pop_many(batch_size)` when empty,
then pop the buffer's last element. -/
def BPQpop (s : BState) (orc : Oracle) : Option Req × BState :=
  let s :=
    if s.buffer = [] then
      let (rs, s') := BPQpopMany s (batchSizeOf s) orc
      { s' with buffer := s'.buffer ++ rs }
    else s
  match s.buffer.getLast? with
  | none => (none, s)
  | some r => (some r, { s with buffer := s.buffer.dropLast })

end DeepDeep

namespace DeepDeep.Links

/-! ## Link intake (`links.py` lines 14–31 and 50–70)

Strings are modelled as `List Char`.  `extract_js_link` is the Python
regex `(javascript:)?location\.href=['"](?P<url>.+)['"]` under `search`
semantics: leftmost starting position, greedy `.+` (which does not match a
newline), and a final quote of either kind.  `urljoin`, `urlparse` and
`posixpath.splitext` are external collaborators (`urllib.parse`, scrapy's
`url_has_any_extension`); they are transcribed from their library sources
so the model can be evaluated on concrete URLs. -/

abbrev Str := List Char

/-- A single quote character (`'`). -/
def quoteA : Char := Char.ofNat 39

/-- A double quote character (`"`). -/
def quoteB : Char := Char.ofNat 34

/-- A newline, which `.` does not match. -/
def newlineC : Char := Char.ofNat 10

def isQuote (c : Char) : Bool := c == quoteA || c == quoteB

def startsWith : Str → Str → Bool
  | _, [] => true
  | [], _ :: _ => false
  | c :: cs, p :: ps => c == p && startsWith cs ps

/-- Python's `sub in s` substring test. -/
def hasSub (hay pat : Str) : Bool :=
  startsWith hay pat ||
    (match hay with
     | [] => false
     | _ :: t => hasSub t pat)

/-- Index of the first quote of the reversed tail, used to locate the last
quote of the greedy `.+` span. -/
def revFindQuote : Str → Option Nat
  | [] => none
  | c :: rest => if isQuote c then some 0 else (revFindQuote rest).map (· + 1)

/-- Match `(?P<url>.+)['"]` greedily against the text after the opening
quote: the url runs to the last quote inside the newline-free span and
must be non-empty. -/
def matchQuoted (rest : Str) : Option Str :=
  let p := rest.takeWhile (fun c => !(c == newlineC))
  match revFindQuote p.reverse with
  | none => none
  | some k =>
    let j := p.length - 1 - k
    if 1 ≤ j then some (p.take j) else none

def locHrefLit : Str := "location.href=".toList

def jsLocHrefLit : Str := "javascript:location.href=".toList

/-- Match the full pattern anchored at the start of `l`.  At a given
position at most one of the two alternatives (with or without the
optional `javascript:`) can match, since their leading literals differ. -/
def matchLocHrefAt (l : Str) : Option Str :=
  if startsWith l jsLocHrefLit then
    match l.drop jsLocHrefLit.length with
    | c :: rest => if isQuote c then matchQuoted rest else none
    | [] => none
  else if startsWith l locHrefLit then
    match l.drop locHrefLit.length with
    | c :: rest => if isQuote c then matchQuoted rest else none
    | [] => none
  else none

/-- Source `re.search`: try every start position left to right. -/
def searchLocHref : Str → Option Str
  | [] => none
  | l@(_ :: t) =>
    match matchLocHrefAt l with
    | some u => some u
    | none => searchLocHref t

/-- Source `extract_js_link(href)`. -/
def extract_js_link (href : Str) : Option Str :=
  searchLocHref href

/-! ### `urllib.parse` transcription -/

structure ParseResult where
  scheme : Str
  netloc : Str
  path : Str
  params : Str
  query : Str
  fragment : Str
deriving DecidableEq, Repr

def isSchemeChar (c : Char) : Bool :=
  c.isAlpha || c.isDigit || c == '+' || c == '-' || c == '.'

def lowerStr (l : Str) : Str := l.map Char.toLower

/-- Source `url.split(ch, 1)`. -/
def splitOnceAt (l : Str) (ch : Char) : Str × Str :=
  match l.findIdx? (· == ch) with
  | none => (l, [])
  | some i => (l.take i, l.drop (i + 1))

/-- Source `_splitnetloc(url, 2)` applied to the text after the `//`. -/
def splitnetloc (l : Str) : Str × Str :=
  match l.findIdx? (fun c => c == '/' || c == '?' || c == '#') with
  | none => (l, [])
  | some i => (l.take i, l.drop i)

def slashSlash : Str := "//".toList

structure SplitResult where
  scheme : Str
  netloc : Str
  path : Str
  query : Str
  fragment : Str
deriving DecidableEq, Repr

/-- Source `urlsplit(url, scheme, allow_fragments)`. -/
def urlsplit (url : Str) (scheme : Str) (allowFragments : Bool) :
    SplitResult :=
  let (scheme, url) :=
    match url.findIdx? (· == ':') with
    | some i =>
      if 0 < i ∧ (url.take i).all isSchemeChar then
        (lowerStr (url.take i), url.drop (i + 1))
      else (scheme, url)
    | none => (scheme, url)
  let (netloc, url) :=
    if startsWith url slashSlash then splitnetloc (url.drop 2)
    else ([], url)
  let (url, fragment) :=
    if allowFragments ∧ url.contains '#' then splitOnceAt url '#'
    else (url, [])
  let (url, query) :=
    if url.contains '?' then splitOnceAt url '?' else (url, [])
  ⟨scheme, netloc, url, query, fragment⟩

/-- Source `p.rfind(ch)` as an option. -/
def rfindChar (l : Str) (ch : Char) : Option Nat :=
  (l.reverse.findIdx? (· == ch)).map (fun k => l.length - 1 - k)

/-- Source `_splitparams(url)`. -/
def splitparams (url : Str) : Str × Str :=
  let i : Option Nat :=
    if url.contains '/' then
      match rfindChar url '/' with
      | some lastSlash =>
        ((url.drop lastSlash).findIdx? (· == ';')).map (· + lastSlash)
      | none => url.findIdx? (· == ';')
    else url.findIdx? (· == ';')
  match i with
  | none => (url, [])
  | some i => (url.take i, url.drop (i + 1))

def usesParams : List Str :=
  (["", "ftp", "hdl", "prospero", "http", "imap", "https", "shttp",
    "rtsp", "rtspu", "sip", "sips", "mms", "sftp", "tel"]).map
    String.toList

def usesRelative : List Str :=
  (["", "ftp", "http", "gopher", "nntp", "imap", "wais", "file", "https",
    "shttp", "mms", "prospero", "rtsp", "rtspu", "sftp", "svn",
    "svn+ssh", "ws", "wss"]).map String.toList

def usesNetloc : List Str :=
  (["", "ftp", "http", "gopher", "nntp", "telnet", "imap", "wais",
    "file", "mms", "https", "shttp", "snews", "prospero", "rtsp",
    "rtspu", "rsync", "svn", "svn+ssh", "sftp", "nfs", "git", "git+ssh",
    "ws", "wss"]).map String.toList

/-- Source `urlparse(url, scheme, allow_fragments)`. -/
def urlparse (url : Str) (scheme : Str) (allowFragments : Bool) :
    ParseResult :=
  let s := urlsplit url scheme allowFragments
  if s.path.contains ';' ∧ s.scheme ∈ usesParams then
    let (p, params) := splitparams s.path
    ⟨s.scheme, s.netloc, p, params, s.query, s.fragment⟩
  else ⟨s.scheme, s.netloc, s.path, [], s.query, s.fragment⟩

/-- Source `urlunsplit`. -/
def urlunsplit (scheme netloc url query fragment : Str) : Str :=
  let url :=
    if netloc ≠ [] ∨ (url ≠ [] ∧ startsWith url slashSlash) then
      let url := if url ≠ [] ∧ ¬ startsWith url ['/'] then '/' :: url else url
      slashSlash ++ netloc ++ url
    else url
  let url := if scheme ≠ [] then scheme ++ ':' :: url else url
  let url := if query ≠ [] then url ++ '?' :: query else url
  if fragment ≠ [] then url ++ '#' :: fragment else url

/-- Source `urlunparse`. -/
def urlunparse (r : ParseResult) : Str :=
  let url := if r.params ≠ [] then r.path ++ ';' :: r.params else r.path
  urlunsplit r.scheme r.netloc url r.query r.fragment

/-- Source `url.split('/')`. -/
def splitChar (ch : Char) : Str → List Str
  | [] => [[]]
  | c :: rest =>
    match splitChar ch rest with
    | [] => [[]]
    | h :: t => if c == ch then [] :: h :: t else (c :: h) :: t

/-- Source `segments[1:-1] = filter(None, segments[1:-1])`. -/
def filterMiddle (segs : List Str) : List Str :=
  match segs with
  | [] => []
  | [x] => [x]
  | x :: rest =>
    x :: ((rest.dropLast.filter (fun s => !s.isEmpty)) ++ [rest.getLastD []])

def dotSeg : Str := ".".toList

def dotdotSeg : Str := "..".toList

/-- The `resolved_path` loop of `urljoin` (a pop on an empty list is
swallowed). -/
def resolveSegs (acc : List Str) : List Str → List Str
  | [] => acc
  | seg :: rest =>
    if seg = dotdotSeg then resolveSegs acc.dropLast rest
    else if seg = dotSeg then resolveSegs acc rest
    else resolveSegs (acc ++ [seg]) rest

/-- Source `urljoin(base, url)` with `allow_fragments=True`. -/
def urljoin (base url : Str) : Str :=
  if base = [] then url
  else if url = [] then base
  else
    let b := urlparse base [] true
    let u := urlparse url b.scheme true
    if ¬ (u.scheme = b.scheme ∧ u.scheme ∈ usesRelative) then url
    else if u.scheme ∈ usesNetloc ∧ u.netloc ≠ [] then
      urlunparse ⟨u.scheme, u.netloc, u.path, u.params, u.query, u.fragment⟩
    else
      let netloc := if u.scheme ∈ usesNetloc then b.netloc else u.netloc
      if u.path = [] ∧ u.params = [] then
        let query := if u.query = [] then b.query else u.query
        urlunparse ⟨u.scheme, netloc, b.path, b.params, query, u.fragment⟩
      else
        let baseParts0 := splitChar '/' b.path
        let baseParts :=
          if baseParts0.getLastD [] ≠ [] then baseParts0.dropLast
          else baseParts0
        let segments :=
          if startsWith u.path ['/'] then splitChar '/' u.path
          else filterMiddle (baseParts ++ splitChar '/' u.path)
        let resolved := resolveSegs [] segments
        let resolved :=
          if segments.getLastD [] = dotSeg ∨ segments.getLastD [] = dotdotSeg
          then resolved ++ [[]]
          else resolved
        let joined := List.intercalate ['/'] resolved
        let joined := if joined = [] then ['/'] else joined
        urlunparse ⟨u.scheme, netloc, joined, u.params, u.query, u.fragment⟩

/-! ### Ignored extensions and the extension filter -/

/-- Source `scrapy.linkextractors.IGNORED_EXTENSIONS` (the standard set). -/
def IGNORED_EXTENSIONS : List String :=
  ["mng", "pct", "bmp", "gif", "jpg", "jpeg", "png", "pst", "psp", "tif",
   "tiff", "ai", "drw", "dxf", "eps", "ps", "svg",
   "mp3", "wma", "ogg", "wav", "ra", "aac", "mid", "au", "aiff",
   "3gp", "asf", "asx", "avi", "mov", "mp4", "mpg", "qt", "rm", "swf",
   "wmv", "m4a",
   "xls", "xlsx", "ppt", "pptx", "pps", "doc", "docx", "odt", "ods",
   "odg", "odp",
   "css", "pdf", "exe", "bin", "rss", "zip", "rar"]

/-- Source `_NEW_IGNORED` (links.py line 14). -/
def NEW_IGNORED : List String :=
  ["7z", "7zip", "xz", "gz", "tar", "bz2", "cdr", "apk"]

/-- Source `_IGNORED = {'.' + e for e in set(IGNORED_EXTENSIONS) | _NEW_IGNORED}`. -/
def IGNORED : List Str :=
  (IGNORED_EXTENSIONS ++ NEW_IGNORED).map (fun e => ("." ++ e).toList)

/-- Source `posixpath.splitext(p)[1]`: the extension including its leading dot,
empty when the basename has none (leading dots do not count). -/
def splitextExt (p : Str) : Str :=
  let sepIndex : Int :=
    match rfindChar p '/' with
    | none => -1
    | some i => i
  let dotIndex : Int :=
    match rfindChar p '.' with
    | none => -1
    | some i => i
  if sepIndex < dotIndex then
    let fname := ((p.drop (sepIndex + 1).toNat).take
      (dotIndex - sepIndex - 1).toNat)
    if fname.any (fun c => !(c == '.')) then p.drop dotIndex.toNat else []
  else []

/-- Source `url_has_any_extension(url, _IGNORED)` from `scrapy.utils.url`. -/
def url_has_any_extension (url : Str) : Bool :=
  decide (lowerStr (splitextExt (urlparse url [] true).path) ∈ IGNORED)

def mailtoLit : Str := "mailto:".toList

/-- The outcome of processing a single `href` in `extract_link_dicts`:
the `url`/`js` fields of the yielded link dict, or `none` when the anchor
is skipped. -/
structure LinkOut where
  url : Str
  js : Bool
deriving DecidableEq, Repr

/-- Lines 57–70 of `links.py`: skip on `'mailto:' in href`; rewrite via
`extract_js_link` and set the `js` flag; join with the base URL; skip on
an ignored extension; otherwise yield. -/
def processHref (base href : Str) : Option LinkOut :=
  if hasSub href mailtoLit then none
  else
    match extract_js_link href with
    | some u =>
      let url := urljoin base u
      if url_has_any_extension url then none else some ⟨url, true⟩
    | none =>
      let url := urljoin base href
      if url_has_any_extension url then none else some ⟨url, false⟩

end DeepDeep.Links

namespace DeepDeep

/-! ## Softmax (`utils.py` lines 63–81)

`softmax` is numpy float code; it is modelled over the reals. -/

/-- Source `np.max` on a non-empty vector (callers guard the empty case). -/
noncomputable def npMax : List ℝ → ℝ
  | [] => 0
  | x :: xs => xs.foldl max x

/-- Source `softmax(z, t)`: `z = np.asanyarray(z) / t; z_exp = np.exp(z -
np.max(z)); return z_exp / z_exp.sum()`, and `[]` on empty input. -/
noncomputable def softmax (z : List ℝ) (t : ℝ) : List ℝ :=
  if z = [] then []
  else
    let z' := z.map (· / t)
    let zexp := z'.map (fun x => Real.exp (x - npMax z'))
    zexp.map (· / zexp.sum)

/-- The formula as the specification words it: `exp((z - max(z)) / t)`
normalised by its sum. -/
noncomputable def specSoftmax (z : List ℝ) (t : ℝ) : List ℝ :=
  if z = [] then []
  else
    let zexp := z.map (fun x => Real.exp ((x - npMax z) / t))
    zexp.map (· / zexp.sum)

/-! ## Heap predicates (for the drain-order invariant) -/

/-- Heap order restricted to the edges whose parent index is at least
`s`; Floyd's bottom-up `heapify` extends this region towards the root. -/
def HeapFrom (a : List Entry) (s : Nat) : Prop :=
  ∀ c, 0 < c → c < a.length → s ≤ hpar c →
    keyLe (a.getD (hpar c) default) (a.getD c default)

/-- The CPython heap invariant over the entry order. -/
def IsHeap (a : List Entry) : Prop := HeapFrom a 0

/-- A live entry's key mirrors its request's priority (spec §8
invariant 2). -/
def WFe (e : Entry) : Prop := ∀ r, e.r = some r → e.p = -r.priority

def WF (a : List Entry) : Prop := ∀ e ∈ a, WFe e

/-- Predicate `Desc s i`: index `i` lies in the subtree rooted at `s`. -/
inductive Desc (s : Nat) : Nat → Prop where
  | refl : Desc s s
  | left {j : Nat} : Desc s j → Desc s (2 * j + 1)
  | right {j : Nat} : Desc s j → Desc s (2 * j + 2)

/-! ## Helper lemmas -/

theorem keyLe_refl (e : Entry) : keyLe e e := Or.inr ⟨rfl, le_refl _⟩

theorem keyLe_trans {e f g : Entry} (h1 : keyLe e f) (h2 : keyLe f g) :
    keyLe e g := by
  unfold keyLe at *
  omega

theorem keyLe_of_lt {e f : Entry} (h : entryLt e f = true) : keyLe e f := by
  unfold entryLt at h
  simp only [Bool.or_eq_true, Bool.and_eq_true, decide_eq_true_eq] at h
  unfold keyLe
  omega

theorem keyLe_of_not_lt {e f : Entry} (h : entryLt e f = false) :
    keyLe f e := by
  unfold entryLt at h
  simp only [Bool.or_eq_false_iff, Bool.and_eq_false_iff,
    decide_eq_false_iff_not] at h
  unfold keyLe
  rcases h with ⟨h1, h2 | h2⟩ <;> omega

theorem keyLe_p {e f : Entry} (h : keyLe e f) : e.p ≤ f.p := by
  unfold keyLe at h
  omega

theorem getD_set_self {a : List Entry} {i : Nat} (x : Entry)
    (h : i < a.length) : (a.set i x).getD i default = x := by
  rw [List.getD_eq_getElem?_getD, List.getElem?_set_eq h]
  rfl

theorem getD_set_other {a : List Entry} {i j : Nat} (x : Entry)
    (h : i ≠ j) : (a.set i x).getD j default = a.getD j default := by
  rw [List.getD_eq_getElem?_getD, List.getElem?_set_ne h,
    ← List.getD_eq_getElem?_getD]

theorem getD_mem {a : List Entry} {i : Nat} (h : i < a.length) :
    a.getD i default ∈ a := by
  rw [List.getD_eq_getElem?_getD, List.getElem?_eq_getElem h]
  exact List.getElem_mem ..

theorem Desc_zero (i : Nat) : Desc 0 i := by
  induction i using Nat.strong_induction_on with
  | _ i ih =>
    match i with
    | 0 => exact Desc.refl
    | Nat.succ k =>
      have hp : k + 1 = 2 * hpar (k + 1) + 1 ∨ k + 1 = 2 * hpar (k + 1) + 2 := by
        unfold hpar
        omega
      have hd : Desc 0 (hpar (k + 1)) := ih _ (by unfold hpar; omega)
      rcases hp with hp | hp
      · rw [show k.succ = k + 1 from rfl, hp]
        exact Desc.left hd
      · rw [show k.succ = k + 1 from rfl, hp]
        exact Desc.right hd

theorem Desc_le {s i : Nat} (h : Desc s i) : s ≤ i := by
  induction h with
  | refl => exact le_refl _
  | left _ ih => omega
  | right _ ih => omega

theorem Desc_par {s i : Nat} (h : Desc s i) (hne : i ≠ s) :
    Desc s (hpar i) ∧ s ≤ hpar i := by
  cases h with
  | refl => exact absurd rfl hne
  | left hj =>
    next j =>
      have he : hpar (2 * j + 1) = j := by unfold hpar; omega
      rw [he]
      exact ⟨hj, Desc_le hj⟩
  | right hj =>
    next j =>
      have he : hpar (2 * j + 2) = j := by unfold hpar; omega
      rw [he]
      exact ⟨hj, Desc_le hj⟩

theorem HeapFrom_half (a : List Entry) : HeapFrom a (a.length / 2) := by
  intro c hc0 hclen hge
  exfalso
  unfold hpar at hge
  omega

/-- Source `_siftdown` (the bubble-up phase) restores the heap order on the
subtree of `startpos` given that (i) every in-region edge not touching
the hole `pos` is ordered, (ii) `newitem` is below the hole's children,
and (iii) the hole's parent is below the hole's children (the bridge over
the hole). -/
theorem siftdownLoopF_spec :
    ∀ (fuel : Nat) (a : List Entry) (sp pos : Nat) (ni : Entry),
      pos < fuel →
      pos < a.length →
      Desc sp pos →
      (∀ c, 0 < c → c < a.length → sp ≤ hpar c → hpar c ≠ pos → c ≠ pos →
        keyLe (a.getD (hpar c) default) (a.getD c default)) →
      (∀ c, 0 < c → c < a.length → hpar c = pos →
        keyLe ni (a.getD c default)) →
      (pos ≠ sp → ∀ c, 0 < c → c < a.length → hpar c = pos →
        keyLe (a.getD (hpar pos) default) (a.getD c default)) →
      HeapFrom (siftdownLoopF fuel a sp pos ni) sp
      ∧ (∀ x ∈ siftdownLoopF fuel a sp pos ni, x ∈ a ∨ x = ni) := by
  intro fuel
  induction fuel with
  | zero =>
    intro a sp pos ni hfuel
    exact absurd hfuel (Nat.not_lt_zero _)
  | succ fuel ih =>
    intro a sp pos ni hfuel hlen hdesc hB2 hB3 hB4
    have hsettle : (pos = sp ∨ keyLe (a.getD (hpar pos) default) ni) →
        HeapFrom (a.set pos ni) sp
        ∧ (∀ x ∈ a.set pos ni, x ∈ a ∨ x = ni) := by
      intro hstop
      constructor
      · intro c hc0 hclen hcpar
        rw [List.length_set] at hclen
        by_cases hcp : c = pos
        · subst hcp
          rw [getD_set_self _ hlen]
          have hppne : hpar c ≠ c := by
            unfold hpar
            omega
          rw [getD_set_other _ (fun he => hppne he.symm)]
          rcases hstop with hstop | hstop
          · exfalso
            subst hstop
            unfold hpar at hcpar
            omega
          · exact hstop
        · by_cases hcc : hpar c = pos
          · rw [getD_set_other _ (fun he => hcp he.symm), hcc,
              getD_set_self _ hlen]
            exact hB3 c hc0 hclen hcc
          · rw [getD_set_other _ (fun he => hcp he.symm),
              getD_set_other _ (fun he => hcc he.symm)]
            exact hB2 c hc0 hclen hcpar hcc hcp
      · intro x hx
        exact List.mem_or_eq_of_mem_set hx
    unfold siftdownLoopF
    by_cases hsp : sp < pos
    · rw [if_pos hsp]
      dsimp only
      by_cases hlt : entryLt ni (a.getD (hpar pos) default) = true
      · rw [if_pos hlt]
        have hpos1 : 1 ≤ pos := by omega
        have hpp_lt : hpar pos < pos := by unfold hpar; omega
        have hdesc' : Desc sp (hpar pos) ∧ sp ≤ hpar pos :=
          Desc_par hdesc (by omega)
        have hres := ih (a.set pos (a.getD (hpar pos) default)) sp
          (hpar pos) ni (by omega)
          (by rw [List.length_set]; omega)
          hdesc'.1
          (by
            intro c hc0 hclen hcpar hcpp hcc
            rw [List.length_set] at hclen
            by_cases hcpos : c = pos
            · exfalso
              subst hcpos
              exact hcpp rfl
            · by_cases hx : hpar c = pos
              · rw [hx, getD_set_self _ hlen,
                  getD_set_other _ (fun he => hcpos he.symm)]
                exact hB4 (by omega) c hc0 hclen hx
              · rw [getD_set_other _ (fun he => hx he.symm),
                  getD_set_other _ (fun he => hcpos he.symm)]
                exact hB2 c hc0 hclen hcpar hx hcpos)
          (by
            intro c hc0 hclen hcpp
            rw [List.length_set] at hclen
            by_cases hcpos : c = pos
            · subst hcpos
              rw [getD_set_self _ hlen]
              exact keyLe_of_lt hlt
            · rw [getD_set_other _ (fun he => hcpos he.symm)]
              refine keyLe_trans (keyLe_of_lt hlt) ?_
              have h1 : sp ≤ hpar c := by rw [hcpp]; exact hdesc'.2
              have h2 : hpar c ≠ pos := by rw [hcpp]; omega
              have h3 := hB2 c hc0 hclen h1 h2 hcpos
              rw [hcpp] at h3
              exact h3)
          (by
            intro hppsp c hc0 hclen hcpp
            rw [List.length_set] at hclen
            have hsp_pp : sp < hpar pos :=
              lt_of_le_of_ne hdesc'.2 (fun he => hppsp he.symm)
            have hpp1 : 1 ≤ hpar pos := by omega
            have hgp := Desc_par hdesc'.1 (by omega)
            have hgp_lt : hpar (hpar pos) < hpar pos := by
              have h' : 1 ≤ hpar pos := hpp1
              unfold hpar at h' ⊢
              omega
            have hedge_pp : keyLe (a.getD (hpar (hpar pos)) default)
                (a.getD (hpar pos) default) :=
              hB2 (hpar pos) (by omega) (by omega) hgp.2 (by omega)
                (by omega)
            rw [getD_set_other _ (by omega : pos ≠ hpar (hpar pos))]
            by_cases hcpos : c = pos
            · subst hcpos
              rw [getD_set_self _ hlen]
              exact hedge_pp
            · rw [getD_set_other _ (fun he => hcpos he.symm)]
              refine keyLe_trans hedge_pp ?_
              have h1 : sp ≤ hpar c := by rw [hcpp]; exact hdesc'.2
              have h2 : hpar c ≠ pos := by rw [hcpp]; omega
              have h3 := hB2 c hc0 hclen h1 h2 hcpos
              rw [hcpp] at h3
              exact h3)
        refine ⟨hres.1, ?_⟩
        intro x hx
        rcases hres.2 x hx with hx' | hx'
        · rcases List.mem_or_eq_of_mem_set hx' with hx'' | hx''
          · exact Or.inl hx''
          · exact Or.inl (hx'' ▸ getD_mem (by omega))
        · exact Or.inr hx'
      · rw [if_neg hlt]
        exact hsettle (Or.inr (keyLe_of_not_lt (by
          revert hlt
          cases entryLt ni (a.getD (hpar pos) default) <;> simp)))
    · rw [if_neg hsp]
      have hps : pos = sp := by
        have := Desc_le hdesc
        omega
      exact hsettle (Or.inl hps)

theorem siftdownLoopF_length (fuel : Nat) :
    ∀ (a : List Entry) (sp pos : Nat) (ni : Entry),
      (siftdownLoopF fuel a sp pos ni).length = a.length := by
  induction fuel with
  | zero => intro a sp pos ni; exact List.length_set ..
  | succ fuel ih =>
    intro a sp pos ni
    unfold siftdownLoopF
    split
    · dsimp only
      split
      · exact (ih ..).trans (List.length_set ..)
      · exact List.length_set ..
    · exact List.length_set ..

theorem siftupLoopF_length (fuel : Nat) :
    ∀ (a : List Entry) (sp pos ep : Nat) (ni : Entry),
      (siftupLoopF fuel a sp pos ep ni).length = a.length := by
  induction fuel with
  | zero =>
    intro a sp pos ep ni
    exact (siftdownLoopF_length ..).trans (List.length_set ..)
  | succ fuel ih =>
    intro a sp pos ep ni
    unfold siftupLoopF
    split
    · exact (ih ..).trans (List.length_set ..)
    · exact (siftdownLoopF_length ..).trans (List.length_set ..)

theorem siftup_length (a : List Entry) (pos : Nat) :
    (siftup a pos).length = a.length :=
  siftupLoopF_length ..

theorem heappush_length (a : List Entry) (e : Entry) :
    (heappush a e).length = a.length + 1 := by
  unfold heappush siftdownLoop
  rw [siftdownLoopF_length, List.length_append, List.length_cons,
    List.length_nil]

theorem heappop_length (a : List Entry) (h : a ≠ []) :
    (heappop a).2.length = a.length - 1 := by
  rw [heappop]
  match hl : a.getLast? with
  | none => exact absurd (List.getLast?_eq_none_iff.mp hl) h
  | some lastelt =>
    simp only []
    split
    · next hd =>
      have hdl : a.dropLast.length = a.length - 1 := List.length_dropLast a
      rw [hd] at hdl
      simp only [List.length_nil] at hdl
      simp [← hdl]
    · next hd =>
      simp only []
      rw [siftup_length, List.length_set, List.length_dropLast]

theorem dictLookup_dictSet_self (qs : List (Slot × RPQState)) (k : Slot)
    (q : RPQState) : dictLookup (dictSet qs k q) k = some q := by
  induction qs with
  | nil => simp [dictSet, dictLookup, List.find?]
  | cons kv rest ih =>
    by_cases hk : kv.1 == k
    · simp [dictSet, hk, dictLookup, List.find?]
    · simp only [dictSet, hk, if_false, Bool.false_eq_true]
      simpa [dictLookup, List.find?, hk] using ih

theorem dictSet_mem (qs : List (Slot × RPQState)) (k : Slot)
    (q : RPQState) : (k, q) ∈ dictSet qs k q := by
  induction qs with
  | nil => simp [dictSet]
  | cons kv rest ih =>
    by_cases hk : kv.1 == k
    · simp [dictSet, hk]
    · simp only [dictSet, hk, if_false, Bool.false_eq_true]
      exact List.mem_cons_of_mem _ ih

theorem dictSet_sum (qs : List (Slot × RPQState)) (k : Slot)
    (q : RPQState) :
    ((dictSet qs k q).map (fun kv => kv.2.entries.length)).sum
      + ((dictLookup qs k).map (·.entries.length)).getD 0
    = (qs.map (fun kv => kv.2.entries.length)).sum + q.entries.length := by
  induction qs with
  | nil => simp [dictSet, dictLookup, List.find?]
  | cons kv rest ih =>
    by_cases hk : kv.1 == k
    · simp only [dictSet, hk, if_true, dictLookup, List.find?, List.map_cons,
        List.sum_cons, Option.map_some, Option.map_some', Option.getD_some]
      omega
    · simp only [dictSet, hk, if_false, Bool.false_eq_true, List.map_cons,
        List.sum_cons]
      simp only [dictLookup, List.find?, hk] at ih ⊢
      omega

theorem find?_filter_ne_none (qs : List (Slot × RPQState)) (k : Slot) :
    (qs.filter (fun kv => !(kv.1 == k))).find? (fun kv => kv.1 == k)
      = none := by
  induction qs with
  | nil => simp
  | cons kv rest ih =>
    by_cases hk : kv.1 == k
    · simpa [List.filter, hk] using ih
    · simp only [List.filter, hk, Bool.not_false]
      simpa [List.find?, hk] using ih

/-- Source `_siftup` (walk the min-child path to a leaf, then bubble up) makes
the subtree of `startpos` a heap, provided every in-region edge not
touching the hole is ordered and the bridge over the hole holds. -/
theorem siftupLoopF_spec :
    ∀ (fuel : Nat) (a : List Entry) (sp pos : Nat) (ni : Entry),
      a.length ≤ fuel + pos →
      pos < a.length →
      Desc sp pos →
      (∀ c, 0 < c → c < a.length → sp ≤ hpar c → hpar c ≠ pos → c ≠ pos →
        keyLe (a.getD (hpar c) default) (a.getD c default)) →
      (pos ≠ sp → ∀ c, 0 < c → c < a.length → hpar c = pos →
        keyLe (a.getD (hpar pos) default) (a.getD c default)) →
      HeapFrom (siftupLoopF fuel a sp pos a.length ni) sp
      ∧ (∀ x ∈ siftupLoopF fuel a sp pos a.length ni, x ∈ a ∨ x = ni) := by
  intro fuel
  induction fuel with
  | zero =>
    intro a sp pos ni hfuel hlen
    exact absurd hfuel (by omega)
  | succ fuel ih =>
    intro a sp pos ni hfuel hlen hdesc hW2 hW4
    have hleaf : ¬ 2 * pos + 1 < a.length →
        HeapFrom (siftdownLoop (a.set pos ni) sp pos ni) sp
        ∧ (∀ x ∈ siftdownLoop (a.set pos ni) sp pos ni, x ∈ a ∨ x = ni) := by
      intro hchild
      have hres := siftdownLoopF_spec (pos + 1) (a.set pos ni) sp pos ni
        (by omega) (by rw [List.length_set]; omega) hdesc
        (by
          intro c hc0 hclen hcpar hcparne hcne
          rw [List.length_set] at hclen
          rw [getD_set_other _ (fun he => hcparne he.symm),
            getD_set_other _ (fun he => hcne he.symm)]
          exact hW2 c hc0 hclen hcpar hcparne hcne)
        (by
          intro c hc0 hclen hcparc
          rw [List.length_set] at hclen
          exfalso
          unfold hpar at hcparc
          omega)
        (by
          intro hps c hc0 hclen hcparc
          rw [List.length_set] at hclen
          exfalso
          unfold hpar at hcparc
          omega)
      refine ⟨hres.1, ?_⟩
      intro x hx
      rcases hres.2 x hx with hx' | hx'
      · rcases List.mem_or_eq_of_mem_set hx' with hx'' | hx''
        · exact Or.inl hx''
        · exact Or.inr hx''
      · exact Or.inr hx'
    have step : ∀ cp2 : Nat,
        (cp2 = 2 * pos + 1 ∨ cp2 = 2 * pos + 2) →
        cp2 < a.length →
        (∀ c, 0 < c → c < a.length → hpar c = pos → c ≠ cp2 →
          keyLe (a.getD cp2 default) (a.getD c default)) →
        HeapFrom (siftupLoopF fuel (a.set pos (a.getD cp2 default)) sp cp2
          a.length ni) sp
        ∧ (∀ x ∈ siftupLoopF fuel (a.set pos (a.getD cp2 default)) sp cp2
            a.length ni, x ∈ a ∨ x = ni) := by
      intro cp2 hcp2cases hcp2lt hcp2min
      have hlen_set : (a.set pos (a.getD cp2 default)).length = a.length :=
        List.length_set ..
      have hparcp2 : hpar cp2 = pos := by
        unfold hpar
        omega
      have hcp2pos : pos < cp2 := by omega
      have hdesc2 : Desc sp cp2 := by
        rcases hcp2cases with hx | hx
        · rw [hx]
          exact Desc.left hdesc
        · rw [hx]
          exact Desc.right hdesc
      have hres := ih (a.set pos (a.getD cp2 default)) sp cp2 ni
        (by rw [hlen_set]; omega)
        (by rw [hlen_set]; omega)
        hdesc2
        (by
          intro c hc0 hclen hcpar hcparne hcne
          rw [hlen_set] at hclen
          by_cases hcpos : c = pos
          · subst hcpos
            rw [getD_set_self _ hlen]
            have hc1 : 1 ≤ c := hc0
            have hppne : hpar c ≠ c := by unfold hpar; omega
            rw [getD_set_other _ (fun he => hppne he.symm)]
            have hcs : c ≠ sp := by
              intro he
              rw [he] at hcpar
              unfold hpar at hcpar
              omega
            exact hW4 hcs cp2 (by omega) hcp2lt hparcp2
          · by_cases hcparpos : hpar c = pos
            · rw [hcparpos, getD_set_self _ hlen,
                getD_set_other _ (fun he => hcpos he.symm)]
              exact hcp2min c hc0 hclen hcparpos hcne
            · rw [getD_set_other _ (fun he => hcparpos he.symm),
                getD_set_other _ (fun he => hcpos he.symm)]
              exact hW2 c hc0 hclen hcpar hcparpos hcpos)
        (by
          intro hcp2sp c hc0 hclen hcparc
          rw [hlen_set] at hclen
          have hcgt : cp2 < c := by
            unfold hpar at hcparc
            omega
          rw [hparcp2, getD_set_self _ hlen,
            getD_set_other _ (by omega : pos ≠ c)]
          have h1 : sp ≤ hpar c := by
            rw [hcparc]
            have := Desc_le hdesc
            omega
          have h2 : hpar c ≠ pos := by rw [hcparc]; omega
          have h3 := hW2 c hc0 hclen h1 h2 (by omega)
          rw [hcparc] at h3
          exact h3)
      rw [hlen_set] at hres
      refine ⟨hres.1, ?_⟩
      intro x hx
      rcases hres.2 x hx with hx' | hx'
      · rcases List.mem_or_eq_of_mem_set hx' with hx'' | hx''
        · exact Or.inl hx''
        · exact Or.inl (hx'' ▸ getD_mem hcp2lt)
      · exact Or.inr hx'
    unfold siftupLoopF
    by_cases hchild : 2 * pos + 1 < a.length
    · rw [if_pos hchild]
      dsimp only
      by_cases hcond : 2 * pos + 1 + 1 < a.length ∧
          ¬ entryLt (a.getD (2 * pos + 1) default)
            (a.getD (2 * pos + 1 + 1) default) = true
      · rw [if_pos hcond]
        refine step (2 * pos + 1 + 1) (Or.inr (by omega)) hcond.1 ?_
        intro c hc0 hclen hcparc hcne
        have hc' : c = 2 * pos + 1 := by
          unfold hpar at hcparc
          omega
        rw [hc']
        have hfalse : entryLt (a.getD (2 * pos + 1) default)
            (a.getD (2 * pos + 1 + 1) default) = false := by
          revert hcond
          cases entryLt (a.getD (2 * pos + 1) default)
            (a.getD (2 * pos + 1 + 1) default) <;> simp
        exact keyLe_of_not_lt hfalse
      · rw [if_neg hcond]
        refine step (2 * pos + 1) (Or.inl rfl) hchild ?_
        intro c hc0 hclen hcparc hcne
        have hc' : c = 2 * pos + 1 + 1 := by
          unfold hpar at hcparc
          omega
        subst hc'
        have htrue : entryLt (a.getD (2 * pos + 1) default)
            (a.getD (2 * pos + 1 + 1) default) = true := by
          by_contra hb
          exact hcond ⟨hclen, fun hx => hb hx⟩
        exact keyLe_of_lt htrue
    · rw [if_neg hchild]
      exact hleaf hchild

/-- Source `_siftup(a, pos)` on an array whose edges below `pos` are ordered
produces one whose edges at or below `pos` are ordered, permuting only
elements of `a`. -/
theorem siftup_spec (a : List Entry) (pos : Nat) (hlen : pos < a.length)
    (h : HeapFrom a (pos + 1)) :
    HeapFrom (siftup a pos) pos ∧ ∀ x ∈ siftup a pos, x ∈ a := by
  have hres := siftupLoopF_spec a.length a pos pos (a.getD pos default)
    (by omega) hlen Desc.refl
    (by
      intro c hc0 hclen hcpar hcparne hcne
      exact h c hc0 hclen (by omega))
    (by intro hps; exact absurd rfl hps)
  refine ⟨hres.1, ?_⟩
  intro x hx
  rcases hres.2 x hx with hx' | hx'
  · exact hx'
  · exact hx' ▸ getD_mem hlen

/-- Floyd's bottom-up `heapify` loop. -/
theorem heapifyFrom_spec :
    ∀ (i : Nat) (a : List Entry), i ≤ a.length / 2 → HeapFrom a i →
      IsHeap (heapifyFrom a i) ∧ (∀ x ∈ heapifyFrom a i, x ∈ a)
      ∧ (heapifyFrom a i).length = a.length := by
  intro i
  induction i with
  | zero =>
    intro a _ h
    exact ⟨h, fun x hx => hx, rfl⟩
  | succ i ihi =>
    intro a hhalf h
    have hlen : i < a.length := by omega
    have hs := siftup_spec a i hlen (fun c hc0 hclen hge =>
      h c hc0 hclen (by omega))
    have hlen2 : (siftup a i).length = a.length := siftup_length ..
    have hres := ihi (siftup a i) (by omega) hs.1
    unfold heapifyFrom
    refine ⟨hres.1, ?_, by rw [hres.2.2, hlen2]⟩
    intro x hx
    exact hs.2 x (hres.2.1 x hx)

/-- Source `heapq.heapify` produces a heap whose elements all come from the
input. -/
theorem pyHeapify_spec (a : List Entry) :
    IsHeap (pyHeapify a) ∧ (∀ x ∈ pyHeapify a, x ∈ a)
    ∧ (pyHeapify a).length = a.length :=
  heapifyFrom_spec (a.length / 2) a (le_refl _) (HeapFrom_half a)

/-- In a heap the root is a minimum. -/
theorem rootMin (a : List Entry) (h : IsHeap a) :
    ∀ i, i < a.length → keyLe (a.getD 0 default) (a.getD i default) := by
  intro i
  induction i using Nat.strong_induction_on with
  | _ i ih =>
    intro hilen
    match i with
    | 0 => exact keyLe_refl _
    | Nat.succ k =>
      have hp : hpar (k + 1) < k + 1 := by unfold hpar; omega
      refine keyLe_trans (ih (hpar (k + 1)) hp (by omega)) ?_
      exact h (k + 1) (by omega) hilen (by omega)

theorem rootMin_mem (a : List Entry) (h : IsHeap a) {x : Entry}
    (hx : x ∈ a) : keyLe (a.getD 0 default) x := by
  obtain ⟨i, hi, rfl⟩ := List.mem_iff_getElem.mp hx
  have : a.getD i default = a[i] := by
    rw [List.getD_eq_getElem?_getD, List.getElem?_eq_getElem hi]
    rfl
  rw [← this]
  exact rootMin a h i hi

theorem getD_append_left {a b : List Entry} {i : Nat} (h : i < a.length) :
    (a ++ b).getD i default = a.getD i default := by
  rw [List.getD_eq_getElem?_getD, List.getElem?_append_left h,
    ← List.getD_eq_getElem?_getD]

/-- Source `heappush` on a heap yields a heap whose elements come from the
input ones plus the pushed item. -/
theorem heappush_spec (a : List Entry) (e : Entry) (h : IsHeap a) :
    IsHeap (heappush a e) ∧ ∀ x ∈ heappush a e, x ∈ a ∨ x = e := by
  unfold heappush siftdownLoop
  have hres := siftdownLoopF_spec (a.length + 1) (a ++ [e]) 0 a.length e
    (by omega) (by simp) (Desc_zero _)
    (by
      intro c hc0 hclen hcpar hcparne hcne
      simp only [List.length_append, List.length_cons, List.length_nil]
        at hclen
      have hclt : c < a.length := by omega
      have hpclt : hpar c < a.length := by unfold hpar at *; omega
      rw [getD_append_left hclt, getD_append_left hpclt]
      exact h c hc0 hclt (by omega))
    (by
      intro c hc0 hclen hcparc
      exfalso
      simp only [List.length_append, List.length_cons, List.length_nil]
        at hclen
      unfold hpar at hcparc
      omega)
    (by
      intro hps c hc0 hclen hcparc
      exfalso
      simp only [List.length_append, List.length_cons, List.length_nil]
        at hclen
      unfold hpar at hcparc
      omega)
  refine ⟨hres.1, ?_⟩
  intro x hx
  rcases hres.2 x hx with hx' | hx'
  · rcases List.mem_append.mp hx' with h1 | h1
    · exact Or.inl h1
    · exact Or.inr (List.mem_singleton.mp h1)
  · exact Or.inr hx'

/-- Source `heappop` on a non-empty heap returns the root; the remaining array
is a heap over a subset of the input elements. -/
theorem heappop_spec (a : List Entry) (h : IsHeap a) (hne : a ≠ []) :
    (heappop a).1 = some (a.getD 0 default)
    ∧ IsHeap (heappop a).2
    ∧ (∀ x ∈ (heappop a).2, x ∈ a) := by
  cases hl : a.getLast? with
  | none => exact absurd (List.getLast?_eq_none_iff.mp hl) hne
  | some lastelt =>
    have hsplit : a.dropLast ++ [lastelt] = a :=
      List.dropLast_append_getLast? lastelt hl
    unfold heappop
    rw [hl]
    dsimp only
    by_cases hd : a.dropLast = []
    · rw [if_pos hd]
      have ha : a = [lastelt] := by
        rw [← hsplit, hd]
        rfl
      refine ⟨?_, ?_, ?_⟩
      · rw [ha]
        try rfl
      · intro c hc0 hclen
        simp at hclen
      · intro x hx
        simp at hx
    · rw [if_neg hd]
      dsimp only
      have hdpos : 0 < a.dropLast.length := List.length_pos.mpr hd
      have hgetD0 : a.dropLast.getD 0 default = a.getD 0 default := by
        conv_rhs => rw [← hsplit]
        rw [getD_append_left hdpos]
      have hseteq : ∀ c, c ≠ 0 → c < a.dropLast.length →
          (a.dropLast.set 0 lastelt).getD c default = a.getD c default := by
        intro c hc0 hclen
        rw [getD_set_other _ (fun he => hc0 he.symm)]
        conv_rhs => rw [← hsplit]
        rw [getD_append_left hclen]
      have hheap1 : HeapFrom (a.dropLast.set 0 lastelt) 1 := by
        intro c hc0 hclen hge
        rw [List.length_set] at hclen
        have hpc0 : hpar c ≠ 0 := by omega
        have hpclt : hpar c < a.dropLast.length := by
          unfold hpar at *
          omega
        rw [hseteq c (by omega) hclen, hseteq (hpar c) hpc0 hpclt]
        have hlenlt : a.dropLast.length ≤ a.length := by
          rw [← hsplit]
          simp
        exact h c hc0 (by omega) (by omega)
      have hsp := siftup_spec (a.dropLast.set 0 lastelt) 0
        (by rw [List.length_set]; omega) (by exact hheap1)
      refine ⟨?_, hsp.1, ?_⟩
      · have hhd : a.dropLast.headD default = a.dropLast.getD 0 default := by
          cases a.dropLast <;> rfl
        rw [hhd, hgetD0]
      · intro x hx
        rcases List.mem_or_eq_of_mem_set (hsp.2 x hx) with hx' | hx'
        · rw [← hsplit]
          exact List.mem_append_left _ hx'
        · rw [← hsplit, hx']
          exact List.mem_append_right _ (List.mem_singleton_self _)

/-- Source `_pop_empty` keeps the heap property and the element set. -/
theorem popEmptyLoopF_spec :
    ∀ (fuel : Nat) (a : List Entry), a.length ≤ fuel → IsHeap a →
      IsHeap (popEmptyLoopF fuel a)
      ∧ (∀ x ∈ popEmptyLoopF fuel a, x ∈ a) := by
  intro fuel
  induction fuel with
  | zero =>
    intro a _ h
    exact ⟨h, fun x hx => hx⟩
  | succ fuel ih =>
    intro a hfuel h
    unfold popEmptyLoopF
    split
    · next hcond =>
      have hne : a ≠ [] := hcond.1
      have hp := heappop_spec a h hne
      have hlen := heappop_length a hne
      have hlenpos : 0 < a.length := List.length_pos.mpr hne
      have hres := ih (heappop a).2 (by omega) hp.2.1
      exact ⟨hres.1, fun x hx => hp.2.2 x (hres.2 x hx)⟩
    · exact ⟨h, fun x hx => hx⟩

/-- The `pop()` loop on a heap: the heap property and element containment
are preserved, and a returned request comes from a live entry of the
input that is below every remaining entry in the heap order. -/
theorem RPQpopLoopF_spec :
    ∀ (fuel : Nat) (a : List Entry), a.length ≤ fuel → IsHeap a →
      IsHeap (RPQpopLoopF fuel a).2
      ∧ (∀ x ∈ (RPQpopLoopF fuel a).2, x ∈ a)
      ∧ (∀ r, (RPQpopLoopF fuel a).1 = some r →
          (∃ e, e ∈ a ∧ e.r = some r
            ∧ ∀ x ∈ (RPQpopLoopF fuel a).2, keyLe e x)
          ∧ (RPQpopLoopF fuel a).2.length < a.length) := by
  intro fuel
  induction fuel with
  | zero =>
    intro a hfuel h
    have ha : a = [] := by
      cases a with
      | nil => rfl
      | cons x t => simp at hfuel
    subst ha
    refine ⟨h, fun x hx => hx, ?_⟩
    intro r hr
    exact absurd hr (by simp [RPQpopLoopF])
  | succ fuel ih =>
    intro a hfuel h
    unfold RPQpopLoopF
    by_cases hne : a = []
    · rw [if_pos hne]
      subst hne
      refine ⟨h, by simp, ?_⟩
      intro r hr
      exact absurd hr (by simp)
    · rw [if_neg hne]
      have hp := heappop_spec a h hne
      have hlen := heappop_length a hne
      have hlenpos : 0 < a.length := List.length_pos.mpr hne
      rw [hp.1]
      dsimp only
      cases hroot : (a.getD 0 default).r with
      | some req =>
        refine ⟨hp.2.1, hp.2.2, ?_⟩
        intro r hr
        dsimp only at hr
        cases hr
        refine ⟨⟨a.getD 0 default, getD_mem hlenpos, hroot, ?_⟩,
          by dsimp only; omega⟩
        intro x hx
        exact rootMin_mem a h (hp.2.2 x hx)
      | none =>
        have hres := ih (heappop a).2 (by omega) hp.2.1
        refine ⟨hres.1, fun x hx => hp.2.2 x (hres.2.1 x hx), ?_⟩
        intro r hr
        obtain ⟨⟨e, he, her, hbound⟩, hlt⟩ := hres.2.2 r hr
        exact ⟨⟨e, hp.2.2 e he, her, hbound⟩, by dsimp only; omega⟩

/-- A successful head of a drain comes from one `pop()` call. -/
theorem drainF_cons (fuel : Nat) (s : RPQState) (r : Req)
    (rest : List Req) (h : drainF fuel s = r :: rest) :
    ∃ a', RPQpopLoop s.entries = (some r, a') := by
  cases fuel with
  | zero => exact absurd h (by simp [drainF])
  | succ fuel =>
    unfold drainF at h
    cases hp : RPQpopLoop s.entries with
    | mk ropt a' =>
      rw [hp] at h
      cases ropt with
      | none => exact absurd h (by simp)
      | some x =>
        dsimp only at h
        have hx : x = r := by
          have := congrArg List.head? h
          simpa using this
        subst hx
        exact ⟨a', rfl⟩

/-- Draining a well-formed heap observes non-increasing priorities. -/
theorem drainF_sorted :
    ∀ (fuel : Nat) (s : RPQState), s.entries.length ≤ fuel →
      IsHeap s.entries → WF s.entries →
      NonIncreasing ((drainF fuel s).map (·.priority)) := by
  intro fuel
  induction fuel with
  | zero =>
    intro s _ _ _
    exact rfl
  | succ fuel ih =>
    intro s hfuel hheap hwf
    unfold drainF
    cases hp : RPQpopLoop s.entries with
    | mk ropt a' =>
      cases ropt with
      | none => exact rfl
      | some r =>
        dsimp only
        have hspec := RPQpopLoopF_spec s.entries.length s.entries
          (le_refl _) hheap
        rw [show RPQpopLoop s.entries
            = RPQpopLoopF s.entries.length s.entries from rfl] at hp
        rw [hp] at hspec
        dsimp only at hspec
        obtain ⟨hheap', hsub', hsome⟩ := hspec
        obtain ⟨⟨e, he, her, hbound⟩, hlt⟩ := hsome r rfl
        have hwf' : WF a' := fun x hx => hwf x (hsub' x hx)
        have hrec := ih { s with entries := a' }
          (by show a'.length ≤ fuel; omega) hheap' hwf'
        cases hL : drainF fuel { s with entries := a' } with
        | nil =>
          show nonIncreasingB _ = true
          simp [hL, nonIncreasingB]
        | cons r2 t =>
          obtain ⟨a'', hp2⟩ := drainF_cons fuel _ r2 t hL
          have hspec2 := RPQpopLoopF_spec a'.length a' (le_refl _) hheap'
          rw [show RPQpopLoop a' = RPQpopLoopF a'.length a' from rfl] at hp2
          rw [hp2] at hspec2
          obtain ⟨e2, he2, her2, _⟩ := (hspec2.2.2 r2 rfl).1
          have hle : r2.priority ≤ r.priority := by
            have h1 := keyLe_p (hbound e2 he2)
            have h2 := hwf e he r her
            have h3 := hwf' e2 he2 r2 her2
            omega
          show nonIncreasingB _ = true
          have hrec2 : nonIncreasingB ((r2 :: t).map (·.priority)) = true := by
            rw [← hL]
            exact hrec
          simp only [List.map_cons] at hrec2 ⊢
          rw [nonIncreasingB]
          simp only [Bool.and_eq_true, decide_eq_true_eq]
          exact ⟨hle, hrec2⟩

/-- Source `heapify()` (heapify + `_pop_empty`) establishes the heap invariant
from any entry array and keeps well-formedness. -/
theorem RPQheapify_inv (t : RPQState) (hwf : WF t.entries) :
    IsHeap (RPQheapify t).entries ∧ WF (RPQheapify t).entries := by
  have hpy := pyHeapify_spec t.entries
  have hpe := popEmptyLoopF_spec (pyHeapify t.entries).length
    (pyHeapify t.entries) (le_refl _) hpy.1
  exact ⟨hpe.1, fun x hx => hwf x (hpy.2.1 x (hpe.2 x hx))⟩

theorem change_priority_WFe (e : Entry) (pr : Int) :
    WFe (change_priority e pr) := by
  intro r' hr'
  unfold change_priority at hr' ⊢
  dsimp only at hr' ⊢
  rcases Option.map_eq_some'.mp hr' with ⟨req, _, hr2⟩
  rw [← hr2]

theorem set_tombstone_WF (a : List Entry) (idx : Nat) (p' c' : Int)
    (hwf : WF a) : WF (a.set idx ⟨p', c', none⟩) := by
  intro x hx
  rcases List.mem_or_eq_of_mem_set hx with hx' | hx'
  · exact hwf x hx'
  · rw [hx']
    intro r' hr'
    exact absurd hr' (by simp)

theorem removeEntryById_WF (s : RPQState) (id : Int)
    (hwf : WF s.entries) : WF (removeEntryById s id).entries := by
  unfold removeEntryById
  split
  · exact hwf
  · unfold removeEntryAt
    dsimp only
    split
    · exact hwf
    · exact set_tombstone_WF s.entries _ _ _ hwf

theorem changePriorityById_WF (s : RPQState) (id pr : Int)
    (hwf : WF s.entries) : WF (changePriorityById s id pr).entries := by
  unfold changePriorityById
  split
  · exact hwf
  · intro x hx
    dsimp only at hx
    rcases List.mem_or_eq_of_mem_set hx with hx' | hx'
    · exact hwf x hx'
    · rw [hx']
      exact change_priority_WFe _ _

theorem foldl_change_WF (ps : List (Int × Int)) :
    ∀ s : RPQState, WF s.entries →
      WF ((ps.foldl (fun t pr => changePriorityById t pr.1 pr.2)
        s)).entries := by
  induction ps with
  | nil => exact fun s hwf => hwf
  | cons p rest ih =>
    intro s hwf
    exact ih _ (changePriorityById_WF s p.1 p.2 hwf)

theorem applyChanges_WF :
    ∀ (es : List Entry) (ps : List Int),
      (∀ e ∈ es, WFe e) → ∀ x ∈ applyChanges es ps, WFe x := by
  intro es
  induction es with
  | nil =>
    intro ps hwf x hx
    cases ps <;> simp [applyChanges] at hx
  | cons e rest ih =>
    intro ps hwf x hx
    cases ps with
    | nil => exact hwf x hx
    | cons pr prest =>
      unfold applyChanges at hx
      split at hx
      · rcases List.mem_cons.mp hx with hx' | hx'
        · rw [hx']
          exact change_priority_WFe _ _
        · exact ih prest (fun y hy => hwf y (List.mem_cons_of_mem _ hy))
            x hx'
      · rcases List.mem_cons.mp hx with hx' | hx'
        · exact hwf x (hx' ▸ List.mem_cons_self ..)
        · exact ih (pr :: prest)
            (fun y hy => hwf y (List.mem_cons_of_mem _ hy)) x hx'

/-- Every operation of the amended alphabet preserves the heap invariant
and key/priority well-formedness. -/
theorem runOpB_inv (s : RPQState) (op : OpB)
    (hheap : IsHeap s.entries) (hwf : WF s.entries) :
    IsHeap (runOpB s op).entries ∧ WF (runOpB s op).entries := by
  cases op with
  | push r =>
    have hp := heappush_spec s.entries ⟨-r.priority, s.counter, some r⟩
      hheap
    refine ⟨hp.1, ?_⟩
    intro x hx
    rcases hp.2 x hx with hx' | hx'
    · exact hwf x hx'
    · rw [hx']
      intro r' hr'
      cases hr'
      rfl
  | pop =>
    have hs := RPQpopLoopF_spec s.entries.length s.entries (le_refl _)
      hheap
    exact ⟨hs.1, fun x hx => hwf x (hs.2.1 x hx)⟩
  | removeEH id =>
    exact RPQheapify_inv _ (removeEntryById_WF s id hwf)
  | changeH ps =>
    exact RPQheapify_inv _ (foldl_change_WF ps s hwf)
  | updateAll f =>
    exact RPQheapify_inv _ (applyChanges_WF s.entries _ hwf)

theorem runOpsB_inv (ops : List OpB) :
    ∀ s : RPQState, IsHeap s.entries → WF s.entries →
      IsHeap (runOpsB s ops).entries ∧ WF (runOpsB s ops).entries := by
  induction ops with
  | nil => exact fun s hheap hwf => ⟨hheap, hwf⟩
  | cons op rest ih =>
    intro s hheap hwf
    have hstep := runOpB_inv s op hheap hwf
    exact ih (runOpB s op) hstep.1 hstep.2

/-! ## Claim theorems -/

/-- C7: pushing `(a,1), (b,2), (c,3)` into a fresh FIFO queue and calling
`update_all_priorities` with a compute function mapping `a ↦ 10`, `b ↦ 0`,
`c ↦ 5` (applied in iteration order, one heapify) yields the pop sequence
`a, c, b` with priorities `10, 5, 0`. -/
theorem claim_C7 :
    (drain (updateAllPriorities
      (RPQpush (RPQpush (RPQpush (RPQinit true)
        { url := "a", priority := 1 })
        { url := "b", priority := 2 })
        { url := "c", priority := 3 })
      (fun rs => rs.map (fun r =>
        if r.url = "a" then 10 else if r.url = "b" then 0 else 5)))).map
      (fun r => (r.url, r.priority))
    = [("a", 10), ("c", 5), ("b", 0)] := by
  decide

/-- C8: a fresh queue defaults to FIFO (counter step `+1`, each push
advancing the counter by the step), and three requests pushed with equal
priority `7` pop in push order `a, b, c`. -/
theorem claim_C8 :
    ((drain (RPQpush (RPQpush (RPQpush (RPQinit true)
        { url := "a", priority := 7 })
        { url := "b", priority := 7 })
        { url := "c", priority := 7 })).map (·.url) = ["a", "b", "c"])
    ∧ (RPQinit true).step = 1
    ∧ ∀ (s : RPQState) (r : Req),
        (RPQpush s r).counter = s.counter + s.step :=
  ⟨by decide, rfl, fun _ _ => rfl⟩

/-- C1 (amended): `max_priority` returns `EMPTY` exactly on an empty entry
list; on a non-empty list it returns the negated key of the heap-root
entry, which equals the top live request's priority whenever the root
entry is live with its key in sync — but not when the root is a tombstone,
whose boosted priority is returned instead. -/
theorem claim_C1 (s : RPQState) :
    (s.entries = [] → maxPriority s = EMPTY_PRIORITY)
    ∧ (∀ e es, s.entries = e :: es → maxPriority s = -e.p)
    ∧ (∀ e es r, s.entries = e :: es → e.r = some r →
        e.p = -r.priority → maxPriority s = r.priority) := by
  refine ⟨?_, ?_, ?_⟩
  · intro h
    unfold maxPriority
    rw [h]
    rfl
  · intro e es h
    unfold maxPriority
    rw [h]
    rfl
  · intro e es r h _ hp
    unfold maxPriority
    rw [h]
    simp only [List.head?_cons]
    rw [hp, neg_neg]

theorem claim_C1_witness :
    maxPriority (RPQpush (RPQinit true) { url := "y", priority := 3 })
      = 3 :=
  (claim_C1 (RPQpush (RPQinit true) { url := "y", priority := 3 })).2.2
    ⟨-3, 0, some { url := "y", priority := 3 }⟩ []
    { url := "y", priority := 3 } (by decide) (by decide) (by decide)

/-- C1 counterexample: push one request with priority 1 and tombstone it
with `remove_entry`.  Every remaining entry is a tombstone (no live entry
exists), yet `max_priority` returns the boosted tombstone priority
`100000001`, not `EMPTY = -100000000`. -/
theorem claim_C1_counterexample :
    maxPriority (removeEntryById
        (RPQpush (RPQinit true) { url := "y", priority := 1 }) 0)
      = 100000001
    ∧ iterRequests (removeEntryById
        (RPQpush (RPQinit true) { url := "y", priority := 1 }) 0) = []
    ∧ (removeEntryById
        (RPQpush (RPQinit true) { url := "y", priority := 1 }) 0).entries
        ≠ []
    ∧ EMPTY_PRIORITY = -100000000 := by
  refine ⟨by decide, by decide, by decide, by decide⟩

/-- C3 (amended): for every finite sequence of operations drawn from
`push`, `pop`, `remove_entry` followed by `heapify`, `change_priority`
followed by `heapify`, and `update_all_priorities`, the sequence of
priorities observed by repeatedly calling `pop()` until it returns `None`
is non-increasing.  (The bare `remove_entry` of the original claim breaks
the heap property; see the counterexample.) -/
theorem claim_C3 (ops : List OpB) :
    NonIncreasing (drainPrios (runOpsB (RPQinit true) ops)) := by
  have hinv := runOpsB_inv ops (RPQinit true)
    (by
      intro c hc0 hclen hge
      simp [RPQinit] at hclen)
    (by
      intro e he
      simp [RPQinit] at he)
  exact drainF_sorted _ _ (le_refl _) hinv.1 hinv.2

/-- C3 counterexample: push priorities `-5, -6, -7`, `remove_entry` the
`-6` entry (no heapify — exactly as `pop_random` does), push `-1`; the
drain then observes priorities `-5, -1, -7`, which increases at the second
step. -/
theorem claim_C3_counterexample :
    drainPrios (runOpsA (RPQinit true)
      [.push { url := "x5", priority := -5 },
       .push { url := "x6", priority := -6 },
       .push { url := "x7", priority := -7 },
       .removeE 1,
       .push { url := "x1", priority := -1 }]) = [-5, -1, -7]
    ∧ ¬ NonIncreasing [-5, -1, -7] :=
  ⟨by decide, by decide⟩

/-- C4: pushing a request whose `scheduler_slot` is a closed slot raises
`QueueClosed` before any mutation: the returned state is exactly the input
state. -/
theorem claim_C4 (s : BState) (r : Req)
    (h : r.schedulerSlot ∈ s.closedSlots) :
    BPQpush s r = (s, some QueueClosedE.queueClosed) := by
  unfold BPQpush
  rw [if_pos h]

theorem claim_C4_witness :
    BPQpush
      { queues := [], closedSlots := [some "d"], eps := 0
        balancingTemperature := 1, batchSize := none, buffer := []
        queueFactory := fun _ => RPQinit true }
      { url := "u", priority := 0, schedulerSlot := some "d" }
    = ({ queues := [], closedSlots := [some "d"], eps := 0
         balancingTemperature := 1, batchSize := none, buffer := []
         queueFactory := fun _ => RPQinit true },
       some QueueClosedE.queueClosed) :=
  claim_C4 _ _ (by decide)

/-- C5: when slot `d` has a queue, the first `close_queue(d)` adds `d` to
`closed_slots`, removes the queue and returns its entry count; a second
`close_queue(d)` returns 0. -/
theorem claim_C5 (s : BState) (d : Slot) (q : RPQState)
    (h : dictLookup s.queues d = some q) :
    (BPQcloseQueue s d).1 = q.entries.length
    ∧ d ∈ (BPQcloseQueue s d).2.closedSlots
    ∧ dictLookup (BPQcloseQueue s d).2.queues d = none
    ∧ (BPQcloseQueue (BPQcloseQueue s d).2 d).1 = 0 := by
  refine ⟨?_, ?_, ?_, ?_⟩
  · unfold BPQcloseQueue
    rw [h]
    rfl
  · unfold BPQcloseQueue
    by_cases hd : d ∈ s.closedSlots
    · simpa [hd] using hd
    · simp [hd]
  · unfold BPQcloseQueue dictLookup
    simp only []
    rw [find?_filter_ne_none]
    rfl
  · unfold BPQcloseQueue dictLookup
    simp only []
    rw [find?_filter_ne_none]
    rfl

theorem claim_C5_witness :
    (BPQcloseQueue
      { queues := [(some "d",
          RPQpush (RPQpush (RPQinit true) { url := "u1", priority := 1 })
            { url := "u2", priority := 2 })]
        closedSlots := [], eps := 0, balancingTemperature := 1
        batchSize := none, buffer := []
        queueFactory := fun _ => RPQinit true }
      (some "d")).1 = 2
    ∧ (BPQcloseQueue (BPQcloseQueue
        { queues := [(some "d",
            RPQpush (RPQpush (RPQinit true) { url := "u1", priority := 1 })
              { url := "u2", priority := 2 })]
          closedSlots := [], eps := 0, balancingTemperature := 1
          batchSize := none, buffer := []
          queueFactory := fun _ => RPQinit true }
        (some "d")).2 (some "d")).1 = 0 := by
  have h := claim_C5
    { queues := [(some "d",
        RPQpush (RPQpush (RPQinit true) { url := "u1", priority := 1 })
          { url := "u2", priority := 2 })]
      closedSlots := [], eps := 0, balancingTemperature := 1
      batchSize := none, buffer := []
      queueFactory := fun _ => RPQinit true }
    (some "d")
    (RPQpush (RPQpush (RPQinit true) { url := "u1", priority := 1 })
      { url := "u2", priority := 2 })
    (by decide)
  exact ⟨h.1.trans (by decide), h.2.2.2⟩

theorem startsWith_hasSub (hay pat : Links.Str)
    (h : Links.startsWith hay pat = true) : Links.hasSub hay pat = true := by
  unfold Links.hasSub
  rw [h]
  rfl

/-- C2 (amended): an href containing (in particular, beginning with)
`mailto:` is dropped; an href matching the `location.href` pattern is
rewritten to the quoted target, tagged `js`, joined with the base URL and
then subject only to the ignored-extension filter; every other href — in
particular a `javascript:` href that does not match the pattern, which is
not specially dropped — is joined with the base URL and subject only to
the ignored-extension filter. -/
theorem claim_C2 :
    (∀ base href, Links.startsWith href Links.mailtoLit = true →
      Links.processHref base href = none)
    ∧ (∀ base href u, Links.hasSub href Links.mailtoLit = false →
        Links.extract_js_link href = some u →
        Links.processHref base href =
          (if Links.url_has_any_extension (Links.urljoin base u) then none
           else some ⟨Links.urljoin base u, true⟩))
    ∧ (∀ base href, Links.hasSub href Links.mailtoLit = false →
        Links.extract_js_link href = none →
        Links.processHref base href =
          (if Links.url_has_any_extension (Links.urljoin base href) then
            none
           else some ⟨Links.urljoin base href, false⟩)) := by
  refine ⟨?_, ?_, ?_⟩
  · intro base href h
    unfold Links.processHref
    rw [startsWith_hasSub _ _ h]
    rfl
  · intro base href u hm hjs
    simp only [Links.processHref, hm, hjs, Bool.false_eq_true, if_false]
  · intro base href hm hjs
    simp only [Links.processHref, hm, hjs, Bool.false_eq_true, if_false]

theorem claim_C2_witness :
    Links.processHref ("http://example.com/".toList)
      ("mailto:bob@example.com".toList) = none :=
  claim_C2.1 _ _ (by decide)

set_option maxHeartbeats 1600000 in
/-- C2 counterexample: the href `javascript:alert(1)` begins with
`javascript:` and does not match the `location.href` pattern, yet it is
not dropped: `extract_link_dicts` yields a link for it (with the
`javascript:` URL kept verbatim and no `js` tag). -/
theorem claim_C2_counterexample :
    Links.startsWith ("javascript:alert(1)".toList)
      ("javascript:".toList) = true
    ∧ Links.extract_js_link ("javascript:alert(1)".toList) = none
    ∧ Links.processHref ("http://example.com/".toList)
        ("javascript:alert(1)".toList)
      = some ⟨"javascript:alert(1)".toList, false⟩ :=
  ⟨by decide, by decide, by decide⟩

theorem sum_map_div (l : List ℝ) (s : ℝ) :
    (l.map (· / s)).sum = l.sum / s := by
  induction l with
  | nil => simp
  | cons x xs ih => simp [ih, add_div]

theorem npMax_div (z : List ℝ) (t : ℝ) (ht : 0 < t) :
    npMax (z.map (· / t)) = npMax z / t := by
  cases z with
  | nil => simp [npMax]
  | cons x xs =>
    simp only [List.map_cons, npMax]
    induction xs generalizing x with
    | nil => rfl
    | cons y ys ih =>
      simp only [List.map_cons, List.foldl_cons]
      rw [← ih (max x y)]
      congr 1
      exact max_div_div_right ht.le x y

/-- C6: softmax preserves length; on non-empty input (any positive
temperature) it is a probability vector — componentwise nonnegative,
summing to 1 — computed exactly as `exp((z - max z) / t)` normalised by
its sum; and on empty input it returns the empty vector. -/
theorem claim_C6 (z : List ℝ) (t : ℝ) (ht : 0 < t) :
    (softmax z t).length = z.length
    ∧ (z ≠ [] →
        (∀ x ∈ softmax z t, 0 ≤ x)
        ∧ (softmax z t).sum = 1
        ∧ softmax z t = specSoftmax z t)
    ∧ softmax [] t = [] := by
  refine ⟨?_, ?_, ?_⟩
  · unfold softmax
    split
    · next hz => rw [hz]
    · simp
  · intro hz
    have hzexp :
        (z.map (· / t)).map
            (fun x => Real.exp (x - npMax (z.map (· / t))))
          = z.map (fun x => Real.exp ((x - npMax z) / t)) := by
      rw [List.map_map]
      refine List.map_congr_left ?_
      intro x _
      simp only [Function.comp]
      rw [npMax_div z t ht, div_sub_div_same]
    have hpos : ∀ x ∈ z.map (fun x => Real.exp ((x - npMax z) / t)),
        (0 : ℝ) < x := by
      intro x hx
      obtain ⟨y, _, rfl⟩ := List.mem_map.mp hx
      exact Real.exp_pos _
    have hne : z.map (fun x => Real.exp ((x - npMax z) / t)) ≠ [] := by
      simpa using hz
    have hsum : 0 < (z.map (fun x => Real.exp ((x - npMax z) / t))).sum :=
      List.sum_pos _ hpos hne
    refine ⟨?_, ?_, ?_⟩
    · intro x hx
      unfold softmax at hx
      rw [if_neg hz] at hx
      simp only [hzexp] at hx
      obtain ⟨y, hy, rfl⟩ := List.mem_map.mp hx
      exact div_nonneg (hpos y hy).le hsum.le
    · unfold softmax
      rw [if_neg hz]
      simp only [hzexp]
      rw [sum_map_div, div_self hsum.ne']
    · unfold softmax specSoftmax
      rw [if_neg hz, if_neg hz]
      simp only [hzexp]
  · unfold softmax
    rw [if_pos rfl]

theorem claim_C6_witness :
    (softmax [0] 1).sum = 1 :=
  ((claim_C6 [0] 1 one_pos).2.1 (by simp)).2.1

theorem popManyLoop_flag :
    ∀ (items : List (Bool × Slot × List Nat)) (s : BState),
      (∀ x ∈ items, x.1 = true) →
      ∀ r ∈ (popManyLoop s items).1, r.fromRandomPolicy = some true := by
  intro items
  induction items with
  | nil =>
    intro s _ r hr
    simp [popManyLoop] at hr
  | cons it rest ih =>
    intro s hall r hr
    obtain ⟨isRand, slot, attempts⟩ := it
    have h1 : isRand = true := hall _ (List.mem_cons_self ..)
    subst h1
    unfold popManyLoop at hr
    dsimp only at hr
    split at hr
    · exact ih _ (fun x hx => hall x (List.mem_cons_of_mem _ hx)) r hr
    · rcases List.mem_cons.mp hr with h | h
      · rw [h]
      · exact ih _ (fun x hx => hall x (List.mem_cons_of_mem _ hx)) r h

/-- C9: with `eps = 1`, `random.random() < eps` holds for every draw, so
every request produced by `_pop_many` is popped through the random-policy
branch and carries `meta['from_random_policy'] = True`. -/
theorem claim_C9 (s : BState) (n : Nat) (orc : Oracle)
    (heps : s.eps = 1) (horc : ∀ i, orc.epsDraw i < 1) :
    ∀ r ∈ (BPQpopMany s n orc).1, r.fromRandomPolicy = some true := by
  intro r hr
  unfold BPQpopMany at hr
  dsimp only at hr
  split at hr
  · simp at hr
  · refine popManyLoop_flag _ s ?_ r hr
    intro x hx
    obtain ⟨i, _, rfl⟩ := List.mem_map.mp hx
    dsimp only
    rw [heps]
    exact decide_eq_true (horc i)

theorem claim_C9_witness :
    ({ url := "u", priority := 1, schedulerSlot := some "d",
       fromRandomPolicy := some true } : Req) ∈ (BPQpopMany
      { queues := [(some "d", RPQpush (RPQinit true)
          { url := "u", priority := 1, schedulerSlot := some "d" })]
        closedSlots := [], eps := 1, balancingTemperature := 1
        batchSize := none, buffer := []
        queueFactory := fun _ => RPQinit true }
      1
      { choice := fun _ => 0, epsDraw := fun _ => 0
        randSlot := fun _ => 0, popRandomAttempts := fun _ => [0] }).1 ∧
    ({ url := "u", priority := 1, schedulerSlot := some "d",
       fromRandomPolicy := some true } : Req).fromRandomPolicy = some true :=
  ⟨by decide, claim_C9
      { queues := [(some "d", RPQpush (RPQinit true)
          { url := "u", priority := 1, schedulerSlot := some "d" })]
        closedSlots := [], eps := 1, balancingTemperature := 1
        batchSize := none, buffer := []
        queueFactory := fun _ => RPQinit true }
      1
      { choice := fun _ => 0, epsDraw := fun _ => 0
        randSlot := fun _ => 0, popRandomAttempts := fun _ => [0] }
      rfl (fun _ => by norm_num) _ (by decide)⟩

/-- C10: a request whose metadata lacks `scheduler_slot` is not rejected
(as long as the default slot is not itself closed): the slot is read as
the absent-key default `None`, a queue under that key is created lazily
via the factory (or reused if present, so all such requests share one
queue), the request is counted by `len`, and the default slot becomes an
active slot eligible for sampling. -/
theorem claim_C10 (s : BState) (r : Req)
    (hslot : r.schedulerSlot = none)
    (hopen : (none : Slot) ∉ s.closedSlots)
    (hfac : (s.queueFactory none).entries = []) :
    (BPQpush s r).2 = none
    ∧ dictLookup (BPQpush s r).1.queues none
        = some (RPQpush
            ((dictLookup s.queues none).getD (s.queueFactory none)) r)
    ∧ BPQlen (BPQpush s r).1 = BPQlen s + 1
    ∧ none ∈ getActiveSlots (BPQpush s r).1 := by
  have hlen1 :
      (RPQpush ((dictLookup s.queues none).getD (s.queueFactory none))
        r).entries.length
      = ((dictLookup s.queues none).map (·.entries.length)).getD 0 + 1 := by
    cases hc : dictLookup s.queues none with
    | none =>
      simp only [Option.getD_none, Option.map_none', RPQpush]
      rw [heappush_length, hfac]
      rfl
    | some q =>
      simp only [Option.getD_some, Option.map_some', RPQpush]
      rw [heappush_length]
  have hpush : BPQpush s r =
      ({ s with queues := dictSet s.queues none (RPQpush ((dictLookup s.queues none).getD (s.queueFactory none)) r) }, none) := by
    unfold BPQpush
    rw [hslot, if_neg hopen]
    cases dictLookup s.queues none <;> rfl
  refine ⟨by rw [hpush], ?_, ?_, ?_⟩
  · rw [hpush]
    exact dictLookup_dictSet_self ..
  · rw [hpush]
    have hsum := dictSet_sum s.queues none
      (RPQpush ((dictLookup s.queues none).getD (s.queueFactory none)) r)
    unfold BPQlen
    dsimp only
    omega
  · rw [hpush]
    unfold getActiveSlots
    refine List.mem_map.mpr
      ⟨(none, RPQpush
          ((dictLookup s.queues none).getD (s.queueFactory none)) r),
        List.mem_filter.mpr ⟨dictSet_mem .., ?_⟩, rfl⟩
    rw [bne_iff_ne]
    dsimp only
    omega

theorem claim_C10_witness :
    BPQlen (BPQpush
      { queues := [], closedSlots := [], eps := 0
        balancingTemperature := 1, batchSize := none, buffer := []
        queueFactory := fun _ => RPQinit true }
      { url := "u", priority := 1 }).1
    = BPQlen
      { queues := [], closedSlots := [], eps := 0
        balancingTemperature := 1, batchSize := none, buffer := []
        queueFactory := fun _ => RPQinit true } + 1 :=
  (claim_C10 _ { url := "u", priority := 1 } rfl (by simp) rfl).2.2.1

end DeepDeep
